import Mathlib

/-!
Verification of the TDT beam-search decoding core
(`nemo/collections/asr/parts/submodules/tdt_beam_decoding.py`).

The development shallowly embeds the parts of `BeamTDTInfer` that the
claims are about: the `Hypothesis` record as the beam search reads and
writes it, duplicate-hypothesis merging (`remove_duplicate_hypotheses`),
final ranking (`sort_nbest`), the per-hypothesis expansion loops of
`default_beam_search` and `modified_adaptive_expansion_search`, the
duration-index bookkeeping computed in `__init__`
(`zero_duration_idx`, `min_non_zero_duration_idx`), the constructor
validation, the early-termination check of `default_beam_search`, and
`compute_ngram_score`.  Scores (Python floats holding natural-log
probabilities) are modelled as real numbers; opaque decoder states,
decoder outputs and KenLM states are type parameters.
-/

namespace TDT

/-- The decoding hypothesis record (the fields of `rnnt_utils.Hypothesis`
that `tdt_beam_decoding.py` reads or writes).  `σ` is the opaque decoder
state type, `δ` the opaque decoder-output tensor type, `Λ` the opaque
KenLM state type.  `score` is a cumulative natural-log probability. -/
structure Hypothesis (σ δ Λ : Type) where
  score : ℝ
  y_sequence : List ℕ
  dec_state : σ
  timestep : List ℤ
  length : ℤ
  last_frame : ℤ
  dec_out : List δ := []
  ngram_lm_state : Option Λ := none

variable {σ δ Λ : Type}

/-- `torch.logaddexp` on scalar tensors: `log(exp a + exp b)`. -/
noncomputable def logaddexp (a b : ℝ) : ℝ :=
  Real.log (Real.exp a + Real.exp b)

/-- Body of the `for hyp in sorted_hyps` loop of
`remove_duplicate_hypotheses`: scan `kept_hyps` for a hypothesis with the
same `y_sequence` and `last_frame`; on a hit, merge the scores with
`torch.logaddexp` in place; otherwise append `hyp` at the end. -/
noncomputable def insertDup (kept_hyps : List (Hypothesis σ δ Λ)) (hyp : Hypothesis σ δ Λ) :
    List (Hypothesis σ δ Λ) :=
  match kept_hyps with
  | [] => [hyp]
  | kept_hyp :: rest =>
    if kept_hyp.y_sequence = hyp.y_sequence ∧ kept_hyp.last_frame = hyp.last_frame then
      { kept_hyp with score := logaddexp kept_hyp.score hyp.score } :: rest
    else
      kept_hyp :: insertDup rest hyp

/-- `BeamTDTInfer.remove_duplicate_hypotheses`: sort the hypotheses by
score in descending order (Python `sorted(..., reverse=True)` is a stable
sort, modelled by `List.insertionSort` on the reversed comparison), then
fold the duplicate-merging scan over them starting from an empty kept
list. -/
noncomputable def remove_duplicate_hypotheses (hypotheses : List (Hypothesis σ δ Λ)) :
    List (Hypothesis σ δ Λ) :=
  (List.insertionSort (fun a b => b.score ≤ a.score) hypotheses).foldl insertDup []

/-- The length-normalized ranking key of `sort_nbest`:
`x.score / len(x.y_sequence)`. -/
noncomputable def normScore (h : Hypothesis σ δ Λ) : ℝ :=
  h.score / (h.y_sequence.length : ℝ)

/-- `BeamTDTInfer.sort_nbest`: sort descending by `score / len(y_sequence)`
when `score_norm` is set, by raw `score` otherwise (Python `sorted`,
stable). -/
noncomputable def sort_nbest (score_norm : Bool) (hyps : List (Hypothesis σ δ Λ)) :
    List (Hypothesis σ δ Λ) :=
  if score_norm then
    List.insertionSort (fun a b => normScore b ≤ normScore a) hyps
  else
    List.insertionSort (fun a b => b.score ≤ a.score) hyps

/-- `A` occupies a strictly earlier position than `B` in the ranked list
`out`. -/
def ranksBefore (out : List (Hypothesis σ δ Λ)) (A B : Hypothesis σ δ Λ) : Prop :=
  ∃ i j : ℕ, i < j ∧ out.get? i = some A ∧ out.get? j = some B

/-- Lower log-sum-exp bound: the merged score dominates both inputs. -/
theorem max_le_logaddexp (a b : ℝ) : max a b ≤ logaddexp a b := by
  have hpos : (0 : ℝ) < Real.exp a + Real.exp b := by positivity
  have hexp : Real.exp (max a b) ≤ Real.exp a + Real.exp b := by
    rcases le_total a b with h | h
    · rw [max_eq_right h]
      have := (Real.exp_pos a).le
      linarith
    · rw [max_eq_left h]
      have := (Real.exp_pos b).le
      linarith
  calc max a b = Real.log (Real.exp (max a b)) := (Real.log_exp _).symm
    _ ≤ Real.log (Real.exp a + Real.exp b) := Real.log_le_log (Real.exp_pos _) hexp

/-- Upper log-sum-exp bound: the merged score exceeds the better input by
at most `ln 2`. -/
theorem logaddexp_le_max_add_log_two (a b : ℝ) : logaddexp a b ≤ max a b + Real.log 2 := by
  have hexp : Real.exp a + Real.exp b ≤ 2 * Real.exp (max a b) := by
    have ha : Real.exp a ≤ Real.exp (max a b) := Real.exp_le_exp.mpr (le_max_left a b)
    have hb : Real.exp b ≤ Real.exp (max a b) := Real.exp_le_exp.mpr (le_max_right a b)
    linarith
  have hpos : (0 : ℝ) < Real.exp a + Real.exp b := by positivity
  calc logaddexp a b ≤ Real.log (2 * Real.exp (max a b)) := Real.log_le_log hpos hexp
    _ = Real.log 2 + Real.log (Real.exp (max a b)) :=
      Real.log_mul two_ne_zero (Real.exp_ne_zero _)
    _ = max a b + Real.log 2 := by rw [Real.log_exp, add_comm]

/-- The merge operation is symmetric in its two scores. -/
theorem logaddexp_comm (a b : ℝ) : logaddexp a b = logaddexp b a := by
  unfold logaddexp
  rw [add_comm]

/-- C1: for every pair of duplicate hypotheses (identical `y_sequence`
and `last_frame`) with scores `a` and `b`,
`remove_duplicate_hypotheses` merges them into a single surviving
hypothesis whose score is the log-sum-exp `log (exp a + exp b)`, and
that merged score satisfies `max a b ≤ merged ≤ max a b + ln 2`. -/
theorem C1_duplicate_merge_is_logsumexp (σ δ Λ : Type) (h1 h2 : Hypothesis σ δ Λ)
    (hdup : h1.y_sequence = h2.y_sequence) (hlf : h1.last_frame = h2.last_frame) :
    (remove_duplicate_hypotheses [h1, h2]).map (fun h => h.score) =
      [logaddexp h1.score h2.score] ∧
    max h1.score h2.score ≤ logaddexp h1.score h2.score ∧
    logaddexp h1.score h2.score ≤ max h1.score h2.score + Real.log 2 := by
  refine ⟨?_, max_le_logaddexp _ _, logaddexp_le_max_add_log_two _ _⟩
  by_cases hba : h2.score ≤ h1.score
  · have hsort : List.insertionSort
        (fun x y : Hypothesis σ δ Λ => y.score ≤ x.score) [h1, h2] = [h1, h2] := by
      simp [List.insertionSort, List.orderedInsert, hba]
    unfold remove_duplicate_hypotheses
    rw [hsort]
    show ((insertDup (insertDup [] h1) h2).map fun h => h.score) = _
    rw [show insertDup ([] : List (Hypothesis σ δ Λ)) h1 = [h1] from rfl]
    simp only [insertDup, if_pos (And.intro hdup hlf)]
    simp
  · have hsort : List.insertionSort
        (fun x y : Hypothesis σ δ Λ => y.score ≤ x.score) [h1, h2] = [h2, h1] := by
      simp [List.insertionSort, List.orderedInsert, hba]
    unfold remove_duplicate_hypotheses
    rw [hsort]
    show ((insertDup (insertDup [] h2) h1).map fun h => h.score) = _
    rw [show insertDup ([] : List (Hypothesis σ δ Λ)) h2 = [h2] from rfl]
    simp only [insertDup, if_pos (And.intro hdup.symm hlf.symm)]
    simp [logaddexp_comm h2.score h1.score]

/-- The duplicate criterion of `remove_duplicate_hypotheses`: identical
`y_sequence` and identical `last_frame`. -/
def isDup (a b : Hypothesis σ δ Λ) : Prop :=
  a.y_sequence = b.y_sequence ∧ a.last_frame = b.last_frame

instance (a b : Hypothesis σ δ Λ) : Decidable (isDup a b) :=
  inferInstanceAs (Decidable (a.y_sequence = b.y_sequence ∧ a.last_frame = b.last_frame))

theorem isDup_refl (a : Hypothesis σ δ Λ) : isDup a a := ⟨rfl, rfl⟩

theorem isDup_symm {a b : Hypothesis σ δ Λ} (h : isDup a b) : isDup b a :=
  ⟨h.1.symm, h.2.symm⟩

theorem isDup_trans {a b c : Hypothesis σ δ Λ} (h1 : isDup a b) (h2 : isDup b c) : isDup a c :=
  ⟨h1.1.trans h2.1, h1.2.trans h2.2⟩

theorem isDup_set_score (x : Hypothesis σ δ Λ) (s : ℝ) : isDup { x with score := s } x :=
  ⟨rfl, rfl⟩

/-- Agreement on every field except `score`. -/
def sameButScore (a x : Hypothesis σ δ Λ) : Prop :=
  a.y_sequence = x.y_sequence ∧ a.timestep = x.timestep ∧ a.dec_state = x.dec_state ∧
    a.dec_out = x.dec_out ∧ a.last_frame = x.last_frame ∧ a.length = x.length ∧
    a.ngram_lm_state = x.ngram_lm_state

theorem sameButScore_refl (a : Hypothesis σ δ Λ) : sameButScore a a :=
  ⟨rfl, rfl, rfl, rfl, rfl, rfl, rfl⟩

theorem sameButScore_update {a x : Hypothesis σ δ Λ} (h : sameButScore a x) (t : ℝ) :
    sameButScore { a with score := t } x := h

theorem isDup_of_sameButScore {a x : Hypothesis σ δ Λ} (h : sameButScore a x) : isDup a x :=
  ⟨h.1, h.2.2.2.2.1⟩

/-- The total probability mass (sum of `exp score`) of the duplicates of
`x` inside `l` — the quantity whose logarithm a chain of `logaddexp`
merges accumulates. -/
noncomputable def groupExpSum (l : List (Hypothesis σ δ Λ)) (x : Hypothesis σ δ Λ) : ℝ :=
  ((l.filter fun y => isDup y x).map fun y => Real.exp y.score).sum

theorem groupExpSum_congr {l : List (Hypothesis σ δ Λ)} {x z : Hypothesis σ δ Λ}
    (h : isDup x z) : groupExpSum l x = groupExpSum l z := by
  unfold groupExpSum
  have : (l.filter fun y => isDup y x) = l.filter fun y => isDup y z := by
    refine List.filter_congr fun y _ => ?_
    exact decide_eq_decide.mpr
      ⟨fun hy => isDup_trans hy h, fun hy => isDup_trans hy (isDup_symm h)⟩
  rw [this]

theorem groupExpSum_append_single (l : List (Hypothesis σ δ Λ)) (h x : Hypothesis σ δ Λ) :
    groupExpSum (l ++ [h]) x =
      groupExpSum l x + (if isDup h x then Real.exp h.score else 0) := by
  unfold groupExpSum
  rw [List.filter_append, List.map_append, List.sum_append]
  by_cases hd : isDup h x <;> simp [hd]

theorem groupExpSum_pos {l : List (Hypothesis σ δ Λ)} {x : Hypothesis σ δ Λ}
    (h : ∃ y ∈ l, isDup y x) : 0 < groupExpSum l x := by
  apply List.sum_pos
  · intro z hz
    obtain ⟨y, _, rfl⟩ := List.mem_map.mp hz
    exact Real.exp_pos _
  · obtain ⟨y, hyl, hyd⟩ := h
    have : y ∈ l.filter fun y => isDup y x :=
      List.mem_filter.mpr ⟨hyl, by simpa using hyd⟩
    intro hnil
    rw [List.map_eq_nil] at hnil
    rw [hnil] at this
    exact absurd this (List.not_mem_nil y)

theorem groupExpSum_eq_zero {l : List (Hypothesis σ δ Λ)} {x : Hypothesis σ δ Λ}
    (h : ∀ y ∈ l, ¬ isDup y x) : groupExpSum l x = 0 := by
  unfold groupExpSum
  have : (l.filter fun y => isDup y x) = [] :=
    List.filter_eq_nil.mpr fun y hy => by simpa using h y hy
  rw [this]
  simp

theorem groupExpSum_perm {l l2 : List (Hypothesis σ δ Λ)} (x : Hypothesis σ δ Λ)
    (h : l.Perm l2) : groupExpSum l x = groupExpSum l2 x :=
  ((h.filter _).map _).sum_eq

theorem insertDup_of_no_dup {acc : List (Hypothesis σ δ Λ)} {h : Hypothesis σ δ Λ}
    (hnd : ∀ a ∈ acc, ¬ isDup a h) : insertDup acc h = acc ++ [h] := by
  induction acc with
  | nil => rfl
  | cons k rest ih =>
    have hk : ¬ (k.y_sequence = h.y_sequence ∧ k.last_frame = h.last_frame) :=
      hnd k (List.mem_cons_self k rest)
    simp only [insertDup, if_neg hk, List.cons_append]
    rw [ih fun a ha => hnd a (List.mem_cons_of_mem k ha)]

theorem insertDup_merge {u : List (Hypothesis σ δ Λ)} {a h : Hypothesis σ δ Λ}
    (v : List (Hypothesis σ δ Λ)) (hu : ∀ b ∈ u, ¬ isDup b h) (ha : isDup a h) :
    insertDup (u ++ a :: v) h =
      u ++ { a with score := logaddexp a.score h.score } :: v := by
  induction u with
  | nil =>
    simp only [List.nil_append, insertDup, if_pos (And.intro ha.1 ha.2)]
  | cons k rest ih =>
    have hk : ¬ (k.y_sequence = h.y_sequence ∧ k.last_frame = h.last_frame) :=
      hu k (List.mem_cons_self k rest)
    simp only [List.cons_append, insertDup, if_neg hk]
    rw [List.append_eq, ih fun b hb => hu b (List.mem_cons_of_mem k hb)]

theorem exists_first_dup {acc : List (Hypothesis σ δ Λ)} {h : Hypothesis σ δ Λ}
    (hex : ∃ a ∈ acc, isDup a h) :
    ∃ u a v, acc = u ++ a :: v ∧ isDup a h ∧ ∀ b ∈ u, ¬ isDup b h := by
  induction acc with
  | nil => simp at hex
  | cons k rest ih =>
    by_cases hk : isDup k h
    · exact ⟨[], k, rest, rfl, hk, by simp⟩
    · obtain ⟨a, ha, had⟩ := hex
      rcases List.mem_cons.mp ha with rfl | harest
      · exact absurd had hk
      · obtain ⟨u, b, v, heq, hbd, hub⟩ := ih ⟨a, harest, had⟩
        refine ⟨k :: u, b, v, by rw [heq]; rfl, hbd, ?_⟩
        intro c hc
        rcases List.mem_cons.mp hc with rfl | hcu
        · exact hk
        · exact hub c hcu

/-- Loop invariant of the duplicate-merging fold: after processing the
prefix `p` of the score-sorted input into the accumulator `acc`, the
accumulator holds no duplicate pair; every accumulator entry coincides,
except for its score, with some processed hypothesis of maximal score in
its duplicate group, and its score is the log of the group's summed
probability mass; and every processed hypothesis has a duplicate
representative in the accumulator. -/
structure DedupInv (p acc : List (Hypothesis σ δ Λ)) : Prop where
  nodup : acc.Pairwise fun a b => ¬ isDup a b
  repr : ∀ a ∈ acc, ∃ x ∈ p, sameButScore a x ∧
      (∀ y ∈ p, isDup y x → y.score ≤ x.score) ∧
      a.score = Real.log (groupExpSum p x)
  cover : ∀ k ∈ p, ∃ a ∈ acc, isDup k a

theorem DedupInv_step {p acc : List (Hypothesis σ δ Λ)} {h : Hypothesis σ δ Λ}
    (hord : ∀ x ∈ p, h.score ≤ x.score) (inv : DedupInv p acc) :
    DedupInv (p ++ [h]) (insertDup acc h) := by
  by_cases hex : ∃ a ∈ acc, isDup a h
  · obtain ⟨u, a, v, heq, had, hu⟩ := exists_first_dup hex
    subst heq
    rw [insertDup_merge v hu had]
    obtain ⟨x, hx, hsb, hxmax, hxs⟩ := inv.repr a
      (List.mem_append_right u (List.mem_cons_self a v))
    have hax : isDup a x := isDup_of_sameButScore hsb
    have hdx : isDup h x := isDup_trans (isDup_symm had) hax
    have hpw := inv.nodup
    rw [List.pairwise_append, List.pairwise_cons] at hpw
    obtain ⟨hpu, ⟨hav, hvv⟩, hpuav⟩ := hpw
    refine ⟨?_, ?_, ?_⟩
    · rw [List.pairwise_append, List.pairwise_cons]
      refine ⟨hpu, ⟨?_, hvv⟩, ?_⟩
      · intro b hb hbd
        exact hav b hb (isDup_trans (isDup_symm (isDup_set_score a _)) hbd)
      · intro b hb c hc
        rcases List.mem_cons.mp hc with rfl | hcv
        · intro hbc
          exact hpuav b hb a (List.mem_cons_self a v)
            (isDup_trans hbc (isDup_set_score a _))
        · exact hpuav b hb c (List.mem_cons_of_mem a hcv)
    · intro b hb
      rcases List.mem_append.mp hb with hbu | hbc
      · obtain ⟨xb, hxb, hbe, hbmax, hbs⟩ := inv.repr b (List.mem_append_left _ hbu)
        have hbx : isDup b xb := isDup_of_sameButScore hbe
        have hnb : ¬ isDup h xb := fun hd =>
          hu b hbu (isDup_symm (isDup_trans hd (isDup_symm hbx)))
        refine ⟨xb, List.mem_append_left _ hxb, hbe, ?_, ?_⟩
        · intro y hy hyd
          rcases List.mem_append.mp hy with hyp2 | hyh
          · exact hbmax y hyp2 hyd
          · rw [List.mem_singleton.mp hyh] at hyd
            exact absurd hyd hnb
        · rw [hbs, groupExpSum_append_single, if_neg hnb, add_zero]
      · rcases List.mem_cons.mp hbc with rfl | hbv
        · refine ⟨x, List.mem_append_left _ hx, sameButScore_update hsb _, ?_, ?_⟩
          · intro y hy hyd
            rcases List.mem_append.mp hy with hyp2 | hyh
            · exact hxmax y hyp2 hyd
            · rw [List.mem_singleton.mp hyh]
              exact hord x hx
          · show logaddexp a.score h.score = _
            rw [hxs]
            unfold logaddexp
            rw [Real.exp_log (groupExpSum_pos ⟨x, hx, isDup_refl x⟩),
              groupExpSum_append_single, if_pos hdx]
        · obtain ⟨xb, hxb, hbe, hbmax, hbs⟩ := inv.repr b
            (List.mem_append_right u (List.mem_cons_of_mem a hbv))
          have hbx : isDup b xb := isDup_of_sameButScore hbe
          have hnb : ¬ isDup h xb := by
            intro hd
            have h1 : isDup a xb := isDup_trans had hd
            exact hav b hbv (isDup_trans h1 (isDup_symm hbx))
          refine ⟨xb, List.mem_append_left _ hxb, hbe, ?_, ?_⟩
          · intro y hy hyd
            rcases List.mem_append.mp hy with hyp2 | hyh
            · exact hbmax y hyp2 hyd
            · rw [List.mem_singleton.mp hyh] at hyd
              exact absurd hyd hnb
          · rw [hbs, groupExpSum_append_single, if_neg hnb, add_zero]
    · intro k hk
      rcases List.mem_append.mp hk with hkp | hkh
      · obtain ⟨b, hb, hbd⟩ := inv.cover k hkp
        rcases List.mem_append.mp hb with hbu | hbc
        · exact ⟨b, List.mem_append_left _ hbu, hbd⟩
        · rcases List.mem_cons.mp hbc with rfl | hbv
          · exact ⟨{ b with score := logaddexp b.score h.score },
              List.mem_append_right _ (List.mem_cons_self _ _),
              isDup_trans hbd (isDup_symm (isDup_set_score b _))⟩
          · exact ⟨b, List.mem_append_right _ (List.mem_cons_of_mem _ hbv), hbd⟩
      · rw [List.mem_singleton.mp hkh]
        exact ⟨{ a with score := logaddexp a.score h.score },
          List.mem_append_right _ (List.mem_cons_self _ _),
          isDup_trans (isDup_symm had) (isDup_symm (isDup_set_score a _))⟩
  · push_neg at hex
    rw [insertDup_of_no_dup hex]
    have hpnot : ∀ y ∈ p, ¬ isDup y h := by
      intro y hy hyd
      obtain ⟨a, ha, had⟩ := inv.cover y hy
      exact hex a ha (isDup_trans (isDup_symm had) hyd)
    refine ⟨?_, ?_, ?_⟩
    · rw [List.pairwise_append]
      refine ⟨inv.nodup, by simp, ?_⟩
      intro a ha b hb
      rw [List.mem_singleton.mp hb]
      exact hex a ha
    · intro a ha
      rcases List.mem_append.mp ha with hacc | hah
      · obtain ⟨x, hx, hsb, hxmax, hxs⟩ := inv.repr a hacc
        have hax : isDup a x := isDup_of_sameButScore hsb
        have hnx : ¬ isDup h x := fun hd =>
          hex a hacc (isDup_symm (isDup_trans hd (isDup_symm hax)))
        refine ⟨x, List.mem_append_left _ hx, hsb, ?_, ?_⟩
        · intro y hy hyd
          rcases List.mem_append.mp hy with hyp2 | hyh
          · exact hxmax y hyp2 hyd
          · rw [List.mem_singleton.mp hyh] at hyd
            exact absurd hyd hnx
        · rw [hxs, groupExpSum_append_single, if_neg hnx, add_zero]
      · rw [List.mem_singleton.mp hah]
        refine ⟨h, List.mem_append_right _ (List.mem_cons_self _ _),
          sameButScore_refl h, ?_, ?_⟩
        · intro y hy hyd
          rcases List.mem_append.mp hy with hyp2 | hyh
          · exact absurd hyd (hpnot y hyp2)
          · rw [List.mem_singleton.mp hyh]
        · rw [groupExpSum_append_single, if_pos (isDup_refl h),
            groupExpSum_eq_zero hpnot, zero_add, Real.log_exp]
    · intro k hk
      rcases List.mem_append.mp hk with hkp | hkh
      · obtain ⟨a, ha, had⟩ := inv.cover k hkp
        exact ⟨a, List.mem_append_left _ ha, had⟩
      · rw [List.mem_singleton.mp hkh]
        exact ⟨h, List.mem_append_right _ (List.mem_cons_self _ _), isDup_refl h⟩

theorem DedupInv_foldl (s : List (Hypothesis σ δ Λ)) :
    ∀ p acc : List (Hypothesis σ δ Λ),
      (p ++ s).Pairwise (fun x y => y.score ≤ x.score) → DedupInv p acc →
      DedupInv (p ++ s) (s.foldl insertDup acc) := by
  induction s with
  | nil =>
    intro p acc _ inv
    simpa using inv
  | cons h t ih =>
    intro p acc hsort inv
    have hord : ∀ x ∈ p, h.score ≤ x.score := by
      rw [List.pairwise_append] at hsort
      exact fun x hx => hsort.2.2 x hx h (List.mem_cons_self h t)
    have e : (p ++ [h]) ++ t = p ++ h :: t := by simp
    have hsort2 : ((p ++ [h]) ++ t).Pairwise (fun x y => y.score ≤ x.score) := by
      rw [e]
      exact hsort
    have res := ih (p ++ [h]) (insertDup acc h) hsort2 (DedupInv_step hord inv)
    rw [e] at res
    exact res

/-- Full characterisation of `remove_duplicate_hypotheses`: no surviving
duplicate pair; every survivor coincides (except score) with a
maximal-score member of its duplicate group in the input, its score being
the log of the group's summed probability mass; and every input
hypothesis has a surviving representative. -/
theorem remove_duplicate_char (l : List (Hypothesis σ δ Λ)) :
    (remove_duplicate_hypotheses l).Pairwise (fun a b => ¬ isDup a b) ∧
    (∀ a ∈ remove_duplicate_hypotheses l, ∃ x ∈ l, sameButScore a x ∧
      (∀ y ∈ l, isDup y x → y.score ≤ x.score) ∧
      a.score = Real.log (groupExpSum l x)) ∧
    (∀ k ∈ l, ∃ a ∈ remove_duplicate_hypotheses l, isDup k a) := by
  have hperm : (List.insertionSort (fun a b : Hypothesis σ δ Λ => b.score ≤ a.score) l).Perm l :=
    List.perm_insertionSort _ l
  have hsorted : (List.insertionSort (fun a b : Hypothesis σ δ Λ => b.score ≤ a.score) l).Pairwise
      fun a b => b.score ≤ a.score := by
    haveI : IsTotal (Hypothesis σ δ Λ) fun a b => b.score ≤ a.score :=
      ⟨fun a b => le_total _ _⟩
    haveI : IsTrans (Hypothesis σ δ Λ) fun a b => b.score ≤ a.score :=
      ⟨fun _ _ _ h1 h2 => le_trans h2 h1⟩
    exact List.sorted_insertionSort _ l
  have base : DedupInv ([] : List (Hypothesis σ δ Λ)) [] :=
    ⟨List.Pairwise.nil, by simp, by simp⟩
  have inv := DedupInv_foldl _ [] [] (by simpa using hsorted) base
  rw [List.nil_append] at inv
  refine ⟨inv.nodup, ?_, ?_⟩
  · intro a ha
    obtain ⟨x, hx, hsb, hmax, hs⟩ := inv.repr a ha
    refine ⟨x, hperm.subset hx, hsb, ?_, ?_⟩
    · intro y hy hyd
      exact hmax y (hperm.symm.subset hy) hyd
    · rw [hs, groupExpSum_perm x hperm]
  · intro k hk
    exact inv.cover k (hperm.symm.subset hk)

/-- C4: after any call to `remove_duplicate_hypotheses`, no two returned
hypotheses share both an identical `y_sequence` and an identical
`last_frame`. -/
theorem C4_no_duplicates_after_dedup (σ δ Λ : Type) (l : List (Hypothesis σ δ Λ)) :
    (remove_duplicate_hypotheses l).Pairwise
      fun a b => ¬ (a.y_sequence = b.y_sequence ∧ a.last_frame = b.last_frame) :=
  (remove_duplicate_char l).1

theorem dedup_triples_mem (l : List (Hypothesis σ δ Λ)) (t : List ℕ × ℤ × ℝ) :
    t ∈ (remove_duplicate_hypotheses l).map (fun h => (h.y_sequence, h.last_frame, h.score)) ↔
      ∃ x ∈ l, t = (x.y_sequence, x.last_frame, Real.log (groupExpSum l x)) := by
  obtain ⟨hnd, hrepr, hcov⟩ := remove_duplicate_char l
  constructor
  · intro ht
    obtain ⟨a, ha, rfl⟩ := List.mem_map.mp ht
    obtain ⟨x, hx, hsb, _, hs⟩ := hrepr a ha
    exact ⟨x, hx, by rw [hsb.1, hsb.2.2.2.2.1, hs]⟩
  · rintro ⟨x, hx, rfl⟩
    obtain ⟨a, ha, had⟩ := hcov x hx
    refine List.mem_map.mpr ⟨a, ha, ?_⟩
    obtain ⟨xa, hxa, hsba, _, hsa⟩ := hrepr a ha
    have hxax : isDup xa x :=
      isDup_trans (isDup_symm (isDup_of_sameButScore hsba)) (isDup_symm had)
    rw [had.1.symm, had.2.symm, hsa, groupExpSum_congr hxax]

/-- C3: the duplicate merge is order-independent — for permuted inputs,
`remove_duplicate_hypotheses` produces the same set of surviving
`(y_sequence, last_frame, score)` triples. -/
theorem C3_dedup_order_independent (σ δ Λ : Type) (l l2 : List (Hypothesis σ δ Λ))
    (hperm : l.Perm l2) (t : List ℕ × ℤ × ℝ) :
    t ∈ (remove_duplicate_hypotheses l).map (fun h => (h.y_sequence, h.last_frame, h.score)) ↔
      t ∈ (remove_duplicate_hypotheses l2).map
        (fun h => (h.y_sequence, h.last_frame, h.score)) := by
  rw [dedup_triples_mem, dedup_triples_mem]
  constructor
  · rintro ⟨x, hx, rfl⟩
    exact ⟨x, hperm.subset hx, by rw [groupExpSum_perm x hperm]⟩
  · rintro ⟨x, hx, rfl⟩
    exact ⟨x, hperm.symm.subset hx, by rw [groupExpSum_perm x hperm.symm]⟩

/-- C10: every survivor of `remove_duplicate_hypotheses` is a
maximal-score member of its duplicate group in the input with its token
sequence, timesteps, decoder state, cached decoder outputs and last frame
unchanged, and only its score replaced by the log-sum-exp of the whole
group's scores. -/
theorem C10_survivor_is_group_max_with_merged_score (σ δ Λ : Type)
    (l : List (Hypothesis σ δ Λ)) (i : Fin (remove_duplicate_hypotheses l).length) :
    ∃ x ∈ l,
      ((remove_duplicate_hypotheses l).get i).y_sequence = x.y_sequence ∧
      ((remove_duplicate_hypotheses l).get i).timestep = x.timestep ∧
      ((remove_duplicate_hypotheses l).get i).dec_state = x.dec_state ∧
      ((remove_duplicate_hypotheses l).get i).dec_out = x.dec_out ∧
      ((remove_duplicate_hypotheses l).get i).last_frame = x.last_frame ∧
      (∀ y ∈ l, y.y_sequence = x.y_sequence → y.last_frame = x.last_frame →
        y.score ≤ x.score) ∧
      ((remove_duplicate_hypotheses l).get i).score = Real.log (groupExpSum l x) := by
  obtain ⟨x, hx, hsb, hmax, hs⟩ :=
    (remove_duplicate_char l).2.1 _ (List.get_mem (remove_duplicate_hypotheses l) i.1 i.2)
  exact ⟨x, hx, hsb.1, hsb.2.1, hsb.2.2.1, hsb.2.2.2.1, hsb.2.2.2.2.1,
    fun y hy h1 h2 => hmax y hy ⟨h1, h2⟩, hs⟩

/-- `self.durations.index(0)` guarded by `try/except ValueError` in
`__init__`: the index of the first zero duration, `none` when absent. -/
def zero_duration_idx : List ℤ → Option ℕ
  | [] => none
  | d :: rest => if d = 0 then some 0 else (zero_duration_idx rest).map fun i => i + 1

/-- One step of the masked argmin scan: combine the head duration with
the best (index, value) found in the tail, masking zeros and preferring
the earlier index on ties. -/
def min_non_zero_combine (d : ℤ) : Option (ℕ × ℤ) → Option (ℕ × ℤ)
  | none => if d = 0 then none else some (0, d)
  | some (j, v) => if d ≠ 0 ∧ d ≤ v then some (0, d) else some (j + 1, v)

/-- `np.argmin(np.ma.masked_where(np.array(durations) == 0, durations))`
from `__init__`: index and value of the first minimal nonzero duration
(`none` when every duration is zero). -/
def min_non_zero_aux : List ℤ → Option (ℕ × ℤ)
  | [] => none
  | d :: rest => min_non_zero_combine d (min_non_zero_aux rest)

/-- `self.min_non_zero_duration_idx` (0 in the degenerate all-masked
case). -/
def min_non_zero_duration_idx (durations : List ℤ) : ℕ :=
  match min_non_zero_aux durations with
  | some p => p.1
  | none => 0

theorem zero_duration_idx_none {l : List ℤ} (h : zero_duration_idx l = none) :
    (0 : ℤ) ∉ l := by
  induction l with
  | nil => simp
  | cons d rest ih =>
    rw [zero_duration_idx] at h
    by_cases hd : d = 0
    · rw [if_pos hd] at h
      exact absurd h (by simp)
    · rw [if_neg hd] at h
      intro hmem
      rcases List.mem_cons.mp hmem with h0 | h0
      · exact hd h0.symm
      · exact ih (by simpa using h) h0

theorem zero_duration_idx_unique {l : List ℤ} (hcount : l.count 0 ≤ 1) :
    ∀ {i : ℕ}, i < l.length → l.getD i 0 = 0 → zero_duration_idx l = some i := by
  induction l with
  | nil => intro i hi; simp at hi
  | cons d rest ih =>
    intro i hi h0
    cases i with
    | zero =>
      have hd : d = 0 := by simpa using h0
      rw [zero_duration_idx, if_pos hd]
    | succ n =>
      have hn : n < rest.length := by simpa using hi
      have h0r : rest.getD n 0 = 0 := by simpa using h0
      have hmem : (0 : ℤ) ∈ rest := by
        have := List.getD_eq_getElem rest 0 hn
        rw [h0r] at this
        rw [this]
        exact List.getElem_mem hn
      have hd : ¬ d = 0 := by
        intro hd0
        have h1 : 0 < rest.count (0 : ℤ) := List.count_pos_iff.mpr hmem
        have h2 : (d :: rest).count 0 = rest.count 0 + 1 := by
          simp [List.count_cons, hd0]
        omega
      have hrc : rest.count (0 : ℤ) ≤ 1 := by
        have h2 : (d :: rest).count 0 = rest.count 0 := by
          simp [List.count_cons, hd]
        omega
      rw [zero_duration_idx, if_neg hd, ih hrc hn h0r]
      rfl

theorem min_non_zero_aux_none {l : List ℤ} (h : min_non_zero_aux l = none) :
    ∀ d ∈ l, d = 0 := by
  induction l with
  | nil => simp
  | cons d rest ih =>
    rw [min_non_zero_aux] at h
    intro x hx
    cases hr : min_non_zero_aux rest with
    | none =>
      rw [hr] at h
      simp only [min_non_zero_combine] at h
      by_cases hd : d = 0
      · rcases List.mem_cons.mp hx with rfl | hxr
        · exact hd
        · exact ih hr x hxr
      · rw [if_neg hd] at h
        exact absurd h (by simp)
    | some p =>
      rw [hr] at h
      cases p with
      | mk j v =>
        simp only [min_non_zero_combine] at h
        by_cases hc : d ≠ 0 ∧ d ≤ v
        · rw [if_pos hc] at h
          exact absurd h (by simp)
        · rw [if_neg hc] at h
          exact absurd h (by simp)

theorem min_non_zero_aux_spec {l : List ℤ} :
    ∀ {j : ℕ} {v : ℤ}, min_non_zero_aux l = some (j, v) →
      j < l.length ∧ l.getD j 0 = v ∧ v ≠ 0 := by
  induction l with
  | nil => intro j v h; exact absurd h (by simp [min_non_zero_aux])
  | cons d rest ih =>
    intro j v h
    rw [min_non_zero_aux] at h
    cases hr : min_non_zero_aux rest with
    | none =>
      rw [hr] at h
      simp only [min_non_zero_combine] at h
      by_cases hd : d = 0
      · rw [if_pos hd] at h
        exact absurd h (by simp)
      · rw [if_neg hd] at h
        have hjv : 0 = j ∧ d = v := by simpa using h
        obtain ⟨h1, h2⟩ := hjv
        rw [← h1, ← h2]
        exact ⟨by simp, by simp, hd⟩
    | some p =>
      cases p with
      | mk j2 v2 =>
        rw [hr] at h
        simp only [min_non_zero_combine] at h
        obtain ⟨hj2, hv2, hnz2⟩ := ih hr
        by_cases hc : d ≠ 0 ∧ d ≤ v2
        · rw [if_pos hc] at h
          have hjv : 0 = j ∧ d = v := by simpa using h
          obtain ⟨h1, h2⟩ := hjv
          rw [← h1, ← h2]
          exact ⟨by simp, by simp, hc.1⟩
        · rw [if_neg hc] at h
          have hjv : j2 + 1 = j ∧ v2 = v := by simpa using h
          obtain ⟨h1, h2⟩ := hjv
          rw [← h1, ← h2]
          refine ⟨by simpa using hj2, ?_, hnz2⟩
          simpa using hv2

/-- The minimum nonzero duration is strictly positive when every duration
is nonnegative and at least one is nonzero. -/
theorem min_non_zero_duration_pos {durations : List ℤ}
    (hnn : ∀ d ∈ durations, 0 ≤ d) (hnz : ∃ d ∈ durations, d ≠ 0) :
    0 < durations.getD (min_non_zero_duration_idx durations) 0 := by
  cases e : min_non_zero_aux durations with
  | none =>
    obtain ⟨d, hd, hdnz⟩ := hnz
    exact absurd (min_non_zero_aux_none e d hd) hdnz
  | some p =>
    cases p with
    | mk j v =>
      obtain ⟨hj, hv, hnzv⟩ := min_non_zero_aux_spec e
      have hidx : min_non_zero_duration_idx durations = j := by
        unfold min_non_zero_duration_idx
        rw [e]
      rw [hidx, hv]
      have hmem : v ∈ durations := by
        have hg := List.getD_eq_getElem durations 0 hj
        rw [hv] at hg
        rw [hg]
        exact List.getElem_mem hj
      exact lt_of_le_of_ne (hnn v hmem) (Ne.symm hnzv)

theorem getD_duration_nonneg {durations : List ℤ} (hnn : ∀ d ∈ durations, 0 ≤ d) (i : ℕ) :
    0 ≤ durations.getD i 0 := by
  by_cases hi : i < durations.length
  · rw [List.getD_eq_getElem durations 0 hi]
    exact hnn _ (List.getElem_mem hi)
  · rw [List.getD_eq_default durations 0 (le_of_not_lt hi)]

/-- A duration index other than the zero-duration index carries a nonzero
duration, provided the value 0 occurs at most once in `durations`. -/
theorem getD_ne_zero_of_ne_zero_idx {durations : List ℤ} (hz1 : durations.count 0 ≤ 1)
    {i : ℕ} (hi : i < durations.length)
    (hne : zero_duration_idx durations ≠ some i) : durations.getD i 0 ≠ 0 :=
  fun h0 => hne (zero_duration_idx_unique hz1 hi h0)

/-- Construction-time failure modes of `BeamTDTInfer.__init__`. -/
inductive InitError : Type
  | alignmentPreservation
  | beamSizeBelowOne
  | searchTypeUnsupported
  | prefixAlphaNegative
  | vocabTooSmall
  | numStepsBelowTwo
  | lmWithoutMaes
  | kenlmMissing

/-- The validation `BeamTDTInfer.__init__` performs (lines 180-246), in
source order: alignment preservation, beam size, the `search_type`
dispatch (`tsd`, `alsd`, `nsc` and unknown types all raise), the
mAES-only checks (`maes_prefix_alpha`, vocabulary budget,
`maes_num_steps`), then the n-gram LM checks (`maes` required, `kenlm`
importable).  `ngram_lm_model` records whether an LM path was supplied,
`kenlm_available` whether the `kenlm` import succeeded. -/
def beam_tdt_infer_init (vocab_size beam_size : ℤ) (search_type : String)
    (maes_num_steps maes_prefix_alpha maes_expansion_beta : ℤ)
    (preserve_alignments ngram_lm_model kenlm_available : Bool) :
    Except InitError Unit :=
  if preserve_alignments then Except.error InitError.alignmentPreservation
  else if beam_size < 1 then Except.error InitError.beamSizeBelowOne
  else if search_type = "default" then
    if ngram_lm_model then Except.error InitError.lmWithoutMaes
    else Except.ok ()
  else if search_type = "tsd" then Except.error InitError.searchTypeUnsupported
  else if search_type = "alsd" then Except.error InitError.searchTypeUnsupported
  else if search_type = "nsc" then Except.error InitError.searchTypeUnsupported
  else if search_type = "maes" then
    if maes_prefix_alpha < 0 then Except.error InitError.prefixAlphaNegative
    else if vocab_size < beam_size + maes_expansion_beta then Except.error InitError.vocabTooSmall
    else if maes_num_steps < 2 then Except.error InitError.numStepsBelowTwo
    else if ngram_lm_model then
      if kenlm_available then Except.ok () else Except.error InitError.kenlmMissing
    else Except.ok ()
  else Except.error InitError.searchTypeUnsupported

set_option maxHeartbeats 2000000 in
/-- C8: construction succeeds exactly when none of the documented
rejection conditions holds: `beam_size < 1`, an unknown or unsupported
`search_type`, `preserve_alignments`, the mAES-only bounds
(`maes_num_steps < 2`, `maes_prefix_alpha < 0`,
`vocab_size < beam_size + maes_expansion_beta`), an n-gram LM with a
non-mAES search type, or an n-gram LM without the KenLM backend. -/
theorem C8_init_validation (vocab_size beam_size : ℤ) (search_type : String)
    (maes_num_steps maes_prefix_alpha maes_expansion_beta : ℤ)
    (preserve_alignments ngram_lm_model kenlm_available : Bool) :
    beam_tdt_infer_init vocab_size beam_size search_type maes_num_steps maes_prefix_alpha
        maes_expansion_beta preserve_alignments ngram_lm_model kenlm_available =
      Except.ok () ↔
    ¬ (beam_size < 1 ∨
        (search_type ≠ "default" ∧ search_type ≠ "maes") ∨
        preserve_alignments = true ∨
        (search_type = "maes" ∧
          (maes_num_steps < 2 ∨ maes_prefix_alpha < 0 ∨
            vocab_size < beam_size + maes_expansion_beta)) ∨
        (ngram_lm_model = true ∧ search_type ≠ "maes") ∨
        (ngram_lm_model = true ∧ kenlm_available = false)) := by
  unfold beam_tdt_infer_init
  split_ifs <;> simp_all

/-- The child hypothesis built for one retained (token, duration) pair in
`default_beam_search` (lines 408-417): extended sequence and timesteps,
the freshly scored decoder state, and `last_frame` advanced by the
pair's duration. -/
def default_pair_child (durations : List ℤ) (encoded_lengths time_idx : ℤ)
    (decoder_state : σ) (max_hyp : Hypothesis σ δ Λ) (e : ℕ × ℕ × ℝ) :
    Hypothesis σ δ Λ :=
  { score := max_hyp.score + e.2.2
    y_sequence := max_hyp.y_sequence ++ [e.1]
    dec_state := decoder_state
    timestep := max_hyp.timestep ++ [time_idx + durations.getD e.2.1 0]
    length := encoded_lengths
    last_frame := max_hyp.last_frame + durations.getD e.2.1 0 }

/-- One iteration of the non-blank loop of `default_beam_search`
(lines 402-423): a zero-duration child re-enters the current frame's
working set (first component), any other child joins the pending set
(second component). -/
def default_pairs_step (durations : List ℤ) (encoded_lengths time_idx : ℤ)
    (decoder_state : σ) (max_hyp : Hypothesis σ δ Λ)
    (acc : List (Hypothesis σ δ Λ) × List (Hypothesis σ δ Λ)) (e : ℕ × ℕ × ℝ) :
    List (Hypothesis σ δ Λ) × List (Hypothesis σ δ Λ) :=
  if durations.getD e.2.1 0 = 0 then
    (acc.1 ++ [default_pair_child durations encoded_lengths time_idx decoder_state max_hyp e],
      acc.2)
  else
    (acc.1,
      acc.2 ++ [default_pair_child durations encoded_lengths time_idx decoder_state max_hyp e])

/-- The whole non-blank loop of `default_beam_search` over the retained
(token, duration, combined log-probability) triples. -/
def default_process_pairs (durations : List ℤ) (encoded_lengths time_idx : ℤ)
    (decoder_state : σ) (max_hyp : Hypothesis σ δ Λ) (pairs : List (ℕ × ℕ × ℝ)) :
    List (Hypothesis σ δ Λ) × List (Hypothesis σ δ Λ) :=
  pairs.foldl (default_pairs_step durations encoded_lengths time_idx decoder_state max_hyp)
    ([], [])

/-- Blank duration handling of `default_beam_search` (lines 427-433):
when the candidate duration index is the zero-duration bin, substitute
the minimum nonzero-duration bin if it is the only candidate in the
duration top-k and skip the candidate (`continue`, i.e. `none`)
otherwise; any other candidate passes through unchanged. -/
def default_blank_duration_rule (durations : List ℤ) (topk_idxs : List ℕ)
    (duration_idx : ℕ) : Option ℕ :=
  if some duration_idx = zero_duration_idx durations then
    if topk_idxs.length = 1 then some (min_non_zero_duration_idx durations) else none
  else some duration_idx

/-- The blank loop of `default_beam_search` (lines 425-444): one blank
child per non-skipped duration candidate, with unchanged sequence,
decoder state and timesteps, scored by the blank log-probability plus
the (possibly substituted) duration's log-probability. -/
def default_process_blank (durations : List ℤ) (encoded_lengths : ℤ) (logp_blank : ℝ)
    (durations_logp : ℕ → ℝ) (max_hyp : Hypothesis σ δ Λ) (topk_idxs : List ℕ) :
    List (Hypothesis σ δ Λ) :=
  topk_idxs.filterMap fun duration_idx0 =>
    (default_blank_duration_rule durations topk_idxs duration_idx0).map fun duration_idx =>
      { score := max_hyp.score + logp_blank + durations_logp duration_idx
        y_sequence := max_hyp.y_sequence
        dec_state := max_hyp.dec_state
        timestep := max_hyp.timestep
        length := encoded_lengths
        last_frame := max_hyp.last_frame + durations.getD duration_idx 0 }

/-- External KenLM model interface: `BaseScore` returns a base-10 log
probability for a label in a state and writes the successor state. -/
structure NGramLM (Λ : Type) where
  baseScore : Λ → String → ℝ × Λ

/-- The label encoding of `compute_ngram_score`:
`chr(label + token_offset)` when a token offset is configured (subword
decoding), the decimal string of the label otherwise. -/
def lm_label_str (token_offset label : ℕ) : String :=
  if token_offset ≠ 0 then String.mk [Char.ofNat (label + token_offset)] else toString label

/-- `BeamTDTInfer.compute_ngram_score`: query the LM and convert its
base-10 log score to natural log by multiplying with
`1.0 / np.log10(np.e)`. -/
noncomputable def compute_ngram_score (ngram_lm : NGramLM Λ) (token_offset : ℕ)
    (current_lm_state : Λ) (label : ℕ) : ℝ × Λ :=
  ((ngram_lm.baseScore current_lm_state (lm_label_str token_offset label)).1 *
      (1 / Real.logb 10 (Real.exp 1)),
    (ngram_lm.baseScore current_lm_state (lm_label_str token_offset label)).2)

/-- The mAES blank-duration substitution (lines 589-594): a blank
expansion whose duration index is the zero-duration bin is always
redirected to the minimum nonzero-duration bin. -/
def maes_blank_duration_idx (durations : List ℤ) (duration_idx : ℕ) : ℕ :=
  if (zero_duration_idx durations).isSome ∧ some duration_idx = zero_duration_idx durations
  then min_non_zero_duration_idx durations
  else duration_idx

/-- Processing of one pruned expansion triple `(k, duration_idx,
total_logp)` in `modified_adaptive_expansion_search` (lines 586-626):
blank children are forced to a nonzero duration and collected in the
first list; non-blank children extend the sequence and timesteps,
optionally accumulate the weighted LM score and advance the LM state,
and are split into the nonzero-duration list (second) and the
zero-duration expansion list (third). -/
noncomputable def maes_expansion_step (durations : List ℤ) (blank : ℕ)
    (lm : Option (NGramLM Λ × ℝ)) (token_offset : ℕ) (time_idx : ℤ)
    (hyp : Hypothesis σ δ Λ)
    (acc : List (Hypothesis σ δ Λ) × List (Hypothesis σ δ Λ) × List (Hypothesis σ δ Λ))
    (e : ℕ × ℕ × ℝ) :
    List (Hypothesis σ δ Λ) × List (Hypothesis σ δ Λ) × List (Hypothesis σ δ Λ) :=
  let duration_idx := if e.1 = blank then maes_blank_duration_idx durations e.2.1 else e.2.1
  let duration := durations.getD duration_idx 0
  let new_hyp : Hypothesis σ δ Λ :=
    { score := hyp.score + e.2.2
      y_sequence := hyp.y_sequence
      dec_state := hyp.dec_state
      timestep := hyp.timestep
      length := time_idx
      last_frame := hyp.last_frame + duration
      dec_out := hyp.dec_out
      ngram_lm_state := if lm.isSome then hyp.ngram_lm_state else none }
  if e.1 = blank then (acc.1 ++ [new_hyp], acc.2.1, acc.2.2)
  else
    let new_hyp2 := { new_hyp with
      y_sequence := new_hyp.y_sequence ++ [e.1]
      timestep := new_hyp.timestep ++ [time_idx] }
    let new_hyp3 :=
      match lm, hyp.ngram_lm_state with
      | some ma, some st =>
        { new_hyp2 with
          score := new_hyp2.score + ma.2 * (compute_ngram_score ma.1 token_offset st e.1).1
          ngram_lm_state := some ((compute_ngram_score ma.1 token_offset st e.1).2) }
      | _, _ => new_hyp2
    if duration = 0 then (acc.1, acc.2.1, acc.2.2 ++ [new_hyp3])
    else (acc.1, acc.2.1 ++ [new_hyp3], acc.2.2)

/-- The whole expansion loop of `modified_adaptive_expansion_search` for
one hypothesis and its pruned expansion triples, returning
`(list_b additions, list_nb additions, list_exp additions)`. -/
noncomputable def maes_process_expansions (durations : List ℤ) (blank : ℕ)
    (lm : Option (NGramLM Λ × ℝ)) (token_offset : ℕ) (time_idx : ℤ)
    (hyp : Hypothesis σ δ Λ) (expansions : List (ℕ × ℕ × ℝ)) :
    List (Hypothesis σ δ Λ) × List (Hypothesis σ δ Λ) × List (Hypothesis σ δ Λ) :=
  expansions.foldl (maes_expansion_step durations blank lm token_offset time_idx hyp)
    ([], [], [])

theorem maes_step_blank (durations : List ℤ) (blank : ℕ) (lm : Option (NGramLM Λ × ℝ))
    (token_offset : ℕ) (time_idx : ℤ) (hyp : Hypothesis σ δ Λ)
    (acc : List (Hypothesis σ δ Λ) × List (Hypothesis σ δ Λ) × List (Hypothesis σ δ Λ))
    (e : ℕ × ℕ × ℝ) (hb : e.1 = blank) :
    maes_expansion_step durations blank lm token_offset time_idx hyp acc e =
      (acc.1 ++
        [{ score := hyp.score + e.2.2
           y_sequence := hyp.y_sequence
           dec_state := hyp.dec_state
           timestep := hyp.timestep
           length := time_idx
           last_frame := hyp.last_frame +
             durations.getD (maes_blank_duration_idx durations e.2.1) 0
           dec_out := hyp.dec_out
           ngram_lm_state := if lm.isSome then hyp.ngram_lm_state else none }],
        acc.2.1, acc.2.2) := by
  simp only [maes_expansion_step, if_pos hb]

theorem maes_step_nonblank (durations : List ℤ) (blank : ℕ) (lm : Option (NGramLM Λ × ℝ))
    (token_offset : ℕ) (time_idx : ℤ) (hyp : Hypothesis σ δ Λ)
    (acc : List (Hypothesis σ δ Λ) × List (Hypothesis σ δ Λ) × List (Hypothesis σ δ Λ))
    (e : ℕ × ℕ × ℝ) (hb : ¬ e.1 = blank) :
    ∃ X : Hypothesis σ δ Λ,
      X.last_frame = hyp.last_frame + durations.getD e.2.1 0 ∧
      maes_expansion_step durations blank lm token_offset time_idx hyp acc e =
        (if durations.getD e.2.1 0 = 0 then (acc.1, acc.2.1, acc.2.2 ++ [X])
         else (acc.1, acc.2.1 ++ [X], acc.2.2)) := by
  simp only [maes_expansion_step, if_neg hb]
  cases lm with
  | none => exact ⟨_, rfl, rfl⟩
  | some ma =>
    cases hst : hyp.ngram_lm_state with
    | none => exact ⟨_, rfl, rfl⟩
    | some st => exact ⟨_, rfl, rfl⟩

theorem maes_foldl_frames (durations : List ℤ) (blank : ℕ) (lm : Option (NGramLM Λ × ℝ))
    (token_offset : ℕ) (time_idx : ℤ) (hyp : Hypothesis σ δ Λ)
    (expansions : List (ℕ × ℕ × ℝ)) :
    ∀ (acc : List (Hypothesis σ δ Λ) × List (Hypothesis σ δ Λ) × List (Hypothesis σ δ Λ))
      (c : Hypothesis σ δ Λ),
      (c ∈ (expansions.foldl
            (maes_expansion_step durations blank lm token_offset time_idx hyp) acc).1 →
        c ∈ acc.1 ∨ ∃ e ∈ expansions, e.1 = blank ∧
          c.last_frame = hyp.last_frame +
            durations.getD (maes_blank_duration_idx durations e.2.1) 0) ∧
      (c ∈ (expansions.foldl
            (maes_expansion_step durations blank lm token_offset time_idx hyp) acc).2.1 →
        c ∈ acc.2.1 ∨ ∃ e ∈ expansions, ¬ e.1 = blank ∧
          c.last_frame = hyp.last_frame + durations.getD e.2.1 0) ∧
      (c ∈ (expansions.foldl
            (maes_expansion_step durations blank lm token_offset time_idx hyp) acc).2.2 →
        c ∈ acc.2.2 ∨ ∃ e ∈ expansions, ¬ e.1 = blank ∧
          c.last_frame = hyp.last_frame + durations.getD e.2.1 0) := by
  induction expansions with
  | nil => intro acc c; simp
  | cons e rest ih =>
    intro acc c
    simp only [List.foldl_cons]
    by_cases hb : e.1 = blank
    · rw [maes_step_blank durations blank lm token_offset time_idx hyp acc e hb]
      obtain ⟨ih1, ih2, ih3⟩ := ih _ c
      refine ⟨?_, ?_, ?_⟩
      · intro hc
        rcases ih1 hc with hmem | ⟨e2, he2, hbe2, hlf⟩
        · rcases List.mem_append.mp hmem with h1 | h1
          · exact Or.inl h1
          · right
            refine ⟨e, List.mem_cons_self e rest, hb, ?_⟩
            rw [List.mem_singleton.mp h1]
        · exact Or.inr ⟨e2, List.mem_cons_of_mem e he2, hbe2, hlf⟩
      · intro hc
        rcases ih2 hc with hmem | ⟨e2, he2, hbe2, hlf⟩
        · exact Or.inl hmem
        · exact Or.inr ⟨e2, List.mem_cons_of_mem e he2, hbe2, hlf⟩
      · intro hc
        rcases ih3 hc with hmem | ⟨e2, he2, hbe2, hlf⟩
        · exact Or.inl hmem
        · exact Or.inr ⟨e2, List.mem_cons_of_mem e he2, hbe2, hlf⟩
    · obtain ⟨X, hX, hstep⟩ :=
        maes_step_nonblank durations blank lm token_offset time_idx hyp acc e hb
      rw [hstep]
      by_cases hd : durations.getD e.2.1 0 = 0
      · rw [if_pos hd]
        obtain ⟨ih1, ih2, ih3⟩ := ih _ c
        refine ⟨?_, ?_, ?_⟩
        · intro hc
          rcases ih1 hc with hmem | ⟨e2, he2, hbe2, hlf⟩
          · exact Or.inl hmem
          · exact Or.inr ⟨e2, List.mem_cons_of_mem e he2, hbe2, hlf⟩
        · intro hc
          rcases ih2 hc with hmem | ⟨e2, he2, hbe2, hlf⟩
          · exact Or.inl hmem
          · exact Or.inr ⟨e2, List.mem_cons_of_mem e he2, hbe2, hlf⟩
        · intro hc
          rcases ih3 hc with hmem | ⟨e2, he2, hbe2, hlf⟩
          · rcases List.mem_append.mp hmem with h1 | h1
            · exact Or.inl h1
            · right
              refine ⟨e, List.mem_cons_self e rest, hb, ?_⟩
              rw [List.mem_singleton.mp h1, hX]
          · exact Or.inr ⟨e2, List.mem_cons_of_mem e he2, hbe2, hlf⟩
      · rw [if_neg hd]
        obtain ⟨ih1, ih2, ih3⟩ := ih _ c
        refine ⟨?_, ?_, ?_⟩
        · intro hc
          rcases ih1 hc with hmem | ⟨e2, he2, hbe2, hlf⟩
          · exact Or.inl hmem
          · exact Or.inr ⟨e2, List.mem_cons_of_mem e he2, hbe2, hlf⟩
        · intro hc
          rcases ih2 hc with hmem | ⟨e2, he2, hbe2, hlf⟩
          · rcases List.mem_append.mp hmem with h1 | h1
            · exact Or.inl h1
            · right
              refine ⟨e, List.mem_cons_self e rest, hb, ?_⟩
              rw [List.mem_singleton.mp h1, hX]
          · exact Or.inr ⟨e2, List.mem_cons_of_mem e he2, hbe2, hlf⟩
        · intro hc
          rcases ih3 hc with hmem | ⟨e2, he2, hbe2, hlf⟩
          · exact Or.inl hmem
          · exact Or.inr ⟨e2, List.mem_cons_of_mem e he2, hbe2, hlf⟩

theorem default_pairs_foldl_mem (durations : List ℤ) (encoded_lengths time_idx : ℤ)
    (decoder_state : σ) (max_hyp : Hypothesis σ δ Λ) (pairs : List (ℕ × ℕ × ℝ)) :
    ∀ (acc : List (Hypothesis σ δ Λ) × List (Hypothesis σ δ Λ)) (c : Hypothesis σ δ Λ),
      (c ∈ (pairs.foldl
            (default_pairs_step durations encoded_lengths time_idx decoder_state max_hyp)
            acc).1 ∨
        c ∈ (pairs.foldl
            (default_pairs_step durations encoded_lengths time_idx decoder_state max_hyp)
            acc).2) →
      (c ∈ acc.1 ∨ c ∈ acc.2) ∨
        ∃ e ∈ pairs,
          c = default_pair_child durations encoded_lengths time_idx decoder_state max_hyp e := by
  induction pairs with
  | nil => intro acc c hc; exact Or.inl hc
  | cons e rest ih =>
    intro acc c hc
    simp only [List.foldl_cons] at hc
    rcases ih _ c hc with hmem | ⟨e2, he2, hce2⟩
    · unfold default_pairs_step at hmem
      by_cases hd : durations.getD e.2.1 0 = 0
      · rw [if_pos hd] at hmem
        rcases hmem with h1 | h1
        · rcases List.mem_append.mp h1 with h2 | h2
          · exact Or.inl (Or.inl h2)
          · exact Or.inr ⟨e, List.mem_cons_self e rest, List.mem_singleton.mp h2⟩
        · exact Or.inl (Or.inr h1)
      · rw [if_neg hd] at hmem
        rcases hmem with h1 | h1
        · exact Or.inl (Or.inl h1)
        · rcases List.mem_append.mp h1 with h2 | h2
          · exact Or.inl (Or.inr h2)
          · exact Or.inr ⟨e, List.mem_cons_self e rest, List.mem_singleton.mp h2⟩
    · exact Or.inr ⟨e2, List.mem_cons_of_mem e he2, hce2⟩

/-- A duration index that `default_blank_duration_rule` lets through
carries a strictly positive duration (given nonnegative durations, at
least one nonzero, and a unique zero value). -/
theorem default_blank_rule_pos {durations : List ℤ} (hnn : ∀ d ∈ durations, 0 ≤ d)
    (hnz : ∃ d ∈ durations, d ≠ 0) (hz1 : durations.count 0 ≤ 1) (topk_idxs : List ℕ)
    {i j : ℕ} (hi : i < durations.length)
    (hr : default_blank_duration_rule durations topk_idxs i = some j) :
    0 < durations.getD j 0 := by
  unfold default_blank_duration_rule at hr
  by_cases hz : some i = zero_duration_idx durations
  · rw [if_pos hz] at hr
    by_cases hl : topk_idxs.length = 1
    · rw [if_pos hl] at hr
      have hj : min_non_zero_duration_idx durations = j := by
        injection hr
      rw [← hj]
      exact min_non_zero_duration_pos hnn hnz
    · rw [if_neg hl] at hr
      exact absurd hr (by simp)
  · rw [if_neg hz] at hr
    have hj : i = j := by injection hr
    have hne0 : durations.getD i 0 ≠ 0 :=
      getD_ne_zero_of_ne_zero_idx hz1 hi fun he => hz he.symm
    rw [← hj]
    exact lt_of_le_of_ne (getD_duration_nonneg hnn i) (Ne.symm hne0)

/-- The duration index produced by the mAES blank substitution carries a
strictly positive duration (same side conditions). -/
theorem maes_blank_idx_pos {durations : List ℤ} (hnn : ∀ d ∈ durations, 0 ≤ d)
    (hnz : ∃ d ∈ durations, d ≠ 0) (hz1 : durations.count 0 ≤ 1) {i : ℕ}
    (hi : i < durations.length) :
    0 < durations.getD (maes_blank_duration_idx durations i) 0 := by
  unfold maes_blank_duration_idx
  by_cases hc : (zero_duration_idx durations).isSome ∧
      some i = zero_duration_idx durations
  · rw [if_pos hc]
    exact min_non_zero_duration_pos hnn hnz
  · rw [if_neg hc]
    have hne0 : durations.getD i 0 ≠ 0 := by
      intro h0
      cases hzi : zero_duration_idx durations with
      | none =>
        have hm : (0 : ℤ) ∈ durations := by
          have hg := List.getD_eq_getElem durations 0 hi
          rw [h0] at hg
          rw [hg]
          exact List.getElem_mem hi
        exact zero_duration_idx_none hzi hm
      | some z =>
        have hu := zero_duration_idx_unique hz1 hi h0
        exact hc ⟨by rw [hu]; rfl, hu.symm⟩
    exact lt_of_le_of_ne (getD_duration_nonneg hnn i) (Ne.symm hne0)

/-- The conclusion of the (amended) monotonic-frame-advance property for
a fixed duration table: every non-blank expansion of either strategy
advances `last_frame` by a nonnegative amount, every blank expansion by
a strictly positive amount. -/
def C5Conclusion (σ δ Λ : Type) (durations : List ℤ) : Prop :=
  (∀ (encoded_lengths time_idx : ℤ) (decoder_state : σ) (max_hyp : Hypothesis σ δ Λ)
      (pairs : List (ℕ × ℕ × ℝ)) (c : Hypothesis σ δ Λ),
      (c ∈ (default_process_pairs durations encoded_lengths time_idx decoder_state max_hyp
            pairs).1 ∨
        c ∈ (default_process_pairs durations encoded_lengths time_idx decoder_state max_hyp
            pairs).2) →
      max_hyp.last_frame ≤ c.last_frame) ∧
  (∀ (encoded_lengths : ℤ) (logp_blank : ℝ) (durations_logp : ℕ → ℝ)
      (max_hyp : Hypothesis σ δ Λ) (topk_idxs : List ℕ),
      (∀ i ∈ topk_idxs, i < durations.length) →
      ∀ c ∈ default_process_blank durations encoded_lengths logp_blank durations_logp
          max_hyp topk_idxs,
        max_hyp.last_frame < c.last_frame) ∧
  (∀ (blank : ℕ) (lm : Option (NGramLM Λ × ℝ)) (token_offset : ℕ) (time_idx : ℤ)
      (hyp : Hypothesis σ δ Λ) (expansions : List (ℕ × ℕ × ℝ)),
      (∀ e ∈ expansions, e.2.1 < durations.length) →
      ∀ c : Hypothesis σ δ Λ,
        ((c ∈ (maes_process_expansions durations blank lm token_offset time_idx hyp
              expansions).2.1 ∨
          c ∈ (maes_process_expansions durations blank lm token_offset time_idx hyp
              expansions).2.2) →
          hyp.last_frame ≤ c.last_frame) ∧
        (c ∈ (maes_process_expansions durations blank lm token_offset time_idx hyp
            expansions).1 →
          hyp.last_frame < c.last_frame))

/-- C5 (amended): when the configured durations are nonnegative, at
least one is nonzero, and the zero value occurs at most once, every
expansion of either search strategy satisfies
`parent.last_frame ≤ child.last_frame`, and every blank expansion
satisfies `parent.last_frame < child.last_frame`.  (The uniqueness of
the zero duration is required: with a duplicated zero bin both
strategies emit zero-duration blanks, see the counterexample.) -/
theorem C5_monotonic_frame_advance (σ δ Λ : Type) (durations : List ℤ)
    (hnn : ∀ d ∈ durations, 0 ≤ d) (hnz : ∃ d ∈ durations, d ≠ 0)
    (hz1 : durations.count 0 ≤ 1) : C5Conclusion σ δ Λ durations := by
  refine ⟨?_, ?_, ?_⟩
  · intro el ti ds mh pairs c hc
    rcases default_pairs_foldl_mem durations el ti ds mh pairs ([], []) c hc with hmem | hchild
    · rcases hmem with h | h <;> simp at h
    · obtain ⟨e, he, hce⟩ := hchild
      rw [hce]
      exact le_add_of_nonneg_right (getD_duration_nonneg hnn e.2.1)
  · intro el lb dlp mh topk hv c hc
    obtain ⟨i, hti, hf⟩ := List.mem_filterMap.mp hc
    obtain ⟨j, hrule, hcj⟩ := Option.map_eq_some'.mp hf
    have hpos := default_blank_rule_pos hnn hnz hz1 topk (hv i hti) hrule
    rw [← hcj]
    exact lt_add_of_pos_right _ hpos
  · intro blank lm toff ti hyp exps hv c
    obtain ⟨f1, f2, f3⟩ :=
      maes_foldl_frames durations blank lm toff ti hyp exps ([], [], []) c
    constructor
    · intro hc
      rcases hc with h | h
      · rcases f2 h with hmem | ⟨e, he, hbe, hlf⟩
        · simp at hmem
        · rw [hlf]
          exact le_add_of_nonneg_right (getD_duration_nonneg hnn e.2.1)
      · rcases f3 h with hmem | ⟨e, he, hbe, hlf⟩
        · simp at hmem
        · rw [hlf]
          exact le_add_of_nonneg_right (getD_duration_nonneg hnn e.2.1)
    · intro hc
      rcases f1 hc with hmem | ⟨e, he, hbe, hlf⟩
      · simp at hmem
      · rw [hlf]
        exact lt_add_of_pos_right _ (maes_blank_idx_pos hnn hnz hz1 (hv e he))

/-- The seed hypothesis of a decode: blank sentinel sequence, timestep
-1, `last_frame = 0`, score 0. -/
def seedHyp : Hypothesis Unit Unit Unit :=
  { score := 0, y_sequence := [3], dec_state := (), timestep := [-1], length := 0,
    last_frame := 0 }

/-- C5 counterexample: with the duration table `[0, 0, 1]` (nonnegative,
one nonzero value, but the zero bin duplicated) the default blank loop
emits a blank child whose `last_frame` equals the parent's: the
candidate index 1 is not the recorded `zero_duration_idx` (which is 0),
so it is neither substituted nor skipped, yet carries duration 0.  This
refutes the claim as stated, whose hypotheses do not exclude a
duplicated zero duration. -/
theorem C5_counterexample :
    (∀ d ∈ ([0, 0, 1] : List ℤ), 0 ≤ d) ∧
    (∃ d ∈ ([0, 0, 1] : List ℤ), d ≠ 0) ∧
    seedHyp.last_frame = 0 ∧
    ((default_process_blank [0, 0, 1] 2 0 (fun _ => 0) seedHyp [1, 2]).map
        fun c => c.last_frame) = [0, 1] ∧
    ∃ c ∈ default_process_blank [0, 0, 1] 2 0 (fun _ => 0) seedHyp [1, 2],
      ¬ (seedHyp.last_frame < c.last_frame) := by
  refine ⟨by decide, by decide, rfl, rfl, ?_⟩
  refine ⟨_, List.mem_cons_self _ _, ?_⟩
  decide

/-- C5 witness: the amended monotone-advance property holds at the
concrete duration table `[0, 1, 2]`. -/
theorem C5_monotone_witness : C5Conclusion Unit Unit Unit [0, 1, 2] :=
  C5_monotonic_frame_advance Unit Unit Unit [0, 1, 2] (by decide) (by decide) (by decide)

/-- C2 (amended): mAES does not reuse default beam search's blank
substitution rule.  When the zero-duration bin exists, default beam
search substitutes the minimum nonzero-duration bin only when the zero
bin is the sole duration candidate and skips the blank candidate
otherwise, whereas mAES always substitutes the minimum
nonzero-duration bin and always emits the blank expansion. -/
theorem C2_maes_blank_substitution (σ δ Λ : Type) (durations : List ℤ) (zidx : ℕ)
    (hz : zero_duration_idx durations = some zidx) :
    (∀ topk_idxs : List ℕ, topk_idxs.length ≠ 1 →
        default_blank_duration_rule durations topk_idxs zidx = none) ∧
    maes_blank_duration_idx durations zidx = min_non_zero_duration_idx durations ∧
    ∀ (blank : ℕ) (lm : Option (NGramLM Λ × ℝ)) (token_offset : ℕ) (time_idx : ℤ)
        (hyp : Hypothesis σ δ Λ) (lp : ℝ),
      (maes_process_expansions durations blank lm token_offset time_idx hyp
          [(blank, zidx, lp)]).1 =
        [{ score := hyp.score + lp
           y_sequence := hyp.y_sequence
           dec_state := hyp.dec_state
           timestep := hyp.timestep
           length := time_idx
           last_frame := hyp.last_frame +
             durations.getD (min_non_zero_duration_idx durations) 0
           dec_out := hyp.dec_out
           ngram_lm_state := if lm.isSome then hyp.ngram_lm_state else none }] := by
  have h2 : maes_blank_duration_idx durations zidx = min_non_zero_duration_idx durations := by
    unfold maes_blank_duration_idx
    rw [if_pos ⟨by rw [hz]; rfl, hz.symm⟩]
  refine ⟨?_, h2, ?_⟩
  · intro topk hlen
    unfold default_blank_duration_rule
    rw [if_pos hz.symm, if_neg hlen]
  · intro blank lm toff ti hyp lp
    have hfold : maes_process_expansions durations blank lm toff ti hyp [(blank, zidx, lp)] =
        maes_expansion_step durations blank lm toff ti hyp ([], [], []) (blank, zidx, lp) :=
      rfl
    rw [hfold,
      maes_step_blank durations blank lm toff ti hyp ([], [], []) (blank, zidx, lp) rfl]
    simp only [List.nil_append]
    rw [show maes_blank_duration_idx durations (blank, zidx, lp).2.1 =
        min_non_zero_duration_idx durations from h2]

/-- C2 counterexample: with durations `[0, 1, 2]` and two candidates in
the duration top-k, default beam search skips the zero-duration blank
candidate, while mAES emits it with the minimum nonzero duration (frame
advance 1) — the two strategies do not share the substitution rule. -/
theorem C2_counterexample :
    default_blank_duration_rule [0, 1, 2] [0, 1] 0 = none ∧
    ¬ ((maes_process_expansions [0, 1, 2] 3 (none : Option (NGramLM Unit × ℝ)) 0 0 seedHyp
        [(3, 0, 0)]).1 = []) ∧
    ((maes_process_expansions [0, 1, 2] 3 (none : Option (NGramLM Unit × ℝ)) 0 0 seedHyp
        [(3, 0, 0)]).1.map fun c => c.last_frame) = [1] := by
  have h3 : ((maes_process_expansions [0, 1, 2] 3 (none : Option (NGramLM Unit × ℝ)) 0 0
      seedHyp [(3, 0, 0)]).1.map fun c => c.last_frame) = [1] := rfl
  refine ⟨rfl, ?_, h3⟩
  intro hnil
  rw [hnil] at h3
  simp at h3

/-- C2 witness: at the concrete duration table `[0, 1, 2]` the mAES
blank substitution redirects the zero bin (index 0) to the minimum
nonzero bin. -/
theorem C2_blank_witness :
    maes_blank_duration_idx [0, 1, 2] 0 = min_non_zero_duration_idx [0, 1, 2] :=
  (C2_maes_blank_substitution Unit Unit Unit [0, 1, 2] 0 rfl).2.1

theorem maes_step_nonblank_lm (durations : List ℤ) (blank : ℕ) (m : NGramLM Λ) (alpha : ℝ)
    (token_offset : ℕ) (time_idx : ℤ) (hyp : Hypothesis σ δ Λ) (st : Λ)
    (hst : hyp.ngram_lm_state = some st)
    (acc : List (Hypothesis σ δ Λ) × List (Hypothesis σ δ Λ) × List (Hypothesis σ δ Λ))
    (e : ℕ × ℕ × ℝ) (hb : ¬ e.1 = blank) :
    ∃ X : Hypothesis σ δ Λ,
      X.score = hyp.score + e.2.2 + alpha * (compute_ngram_score m token_offset st e.1).1 ∧
      X.ngram_lm_state = some ((compute_ngram_score m token_offset st e.1).2) ∧
      maes_expansion_step durations blank (some (m, alpha)) token_offset time_idx hyp acc e =
        (if durations.getD e.2.1 0 = 0 then (acc.1, acc.2.1, acc.2.2 ++ [X])
         else (acc.1, acc.2.1 ++ [X], acc.2.2)) := by
  simp only [maes_expansion_step, if_neg hb, hst]
  exact ⟨_, rfl, rfl, rfl⟩

theorem maes_foldl_lm (durations : List ℤ) (blank : ℕ) (m : NGramLM Λ) (alpha : ℝ)
    (token_offset : ℕ) (time_idx : ℤ) (hyp : Hypothesis σ δ Λ) (st : Λ)
    (hst : hyp.ngram_lm_state = some st) (expansions : List (ℕ × ℕ × ℝ)) :
    ∀ (acc : List (Hypothesis σ δ Λ) × List (Hypothesis σ δ Λ) × List (Hypothesis σ δ Λ))
      (c : Hypothesis σ δ Λ),
      (c ∈ (expansions.foldl
            (maes_expansion_step durations blank (some (m, alpha)) token_offset time_idx hyp)
            acc).2.1 →
        c ∈ acc.2.1 ∨ ∃ e ∈ expansions, ¬ e.1 = blank ∧
          c.score = hyp.score + e.2.2 + alpha * (compute_ngram_score m token_offset st e.1).1 ∧
          c.ngram_lm_state = some ((compute_ngram_score m token_offset st e.1).2)) ∧
      (c ∈ (expansions.foldl
            (maes_expansion_step durations blank (some (m, alpha)) token_offset time_idx hyp)
            acc).2.2 →
        c ∈ acc.2.2 ∨ ∃ e ∈ expansions, ¬ e.1 = blank ∧
          c.score = hyp.score + e.2.2 + alpha * (compute_ngram_score m token_offset st e.1).1 ∧
          c.ngram_lm_state = some ((compute_ngram_score m token_offset st e.1).2)) := by
  induction expansions with
  | nil => intro acc c; simp
  | cons e rest ih =>
    intro acc c
    simp only [List.foldl_cons]
    by_cases hb : e.1 = blank
    · rw [maes_step_blank durations blank (some (m, alpha)) token_offset time_idx hyp acc e hb]
      obtain ⟨ih1, ih2⟩ := ih _ c
      refine ⟨?_, ?_⟩
      · intro hc
        rcases ih1 hc with hmem | ⟨e2, he2, hbe2, hs2, hl2⟩
        · exact Or.inl hmem
        · exact Or.inr ⟨e2, List.mem_cons_of_mem e he2, hbe2, hs2, hl2⟩
      · intro hc
        rcases ih2 hc with hmem | ⟨e2, he2, hbe2, hs2, hl2⟩
        · exact Or.inl hmem
        · exact Or.inr ⟨e2, List.mem_cons_of_mem e he2, hbe2, hs2, hl2⟩
    · obtain ⟨X, hXs, hXl, hstep⟩ :=
        maes_step_nonblank_lm durations blank m alpha token_offset time_idx hyp st hst acc e hb
      rw [hstep]
      by_cases hd : durations.getD e.2.1 0 = 0
      · rw [if_pos hd]
        obtain ⟨ih1, ih2⟩ := ih _ c
        refine ⟨?_, ?_⟩
        · intro hc
          rcases ih1 hc with hmem | ⟨e2, he2, hbe2, hs2, hl2⟩
          · exact Or.inl hmem
          · exact Or.inr ⟨e2, List.mem_cons_of_mem e he2, hbe2, hs2, hl2⟩
        · intro hc
          rcases ih2 hc with hmem | ⟨e2, he2, hbe2, hs2, hl2⟩
          · rcases List.mem_append.mp hmem with h1 | h1
            · exact Or.inl h1
            · right
              refine ⟨e, List.mem_cons_self e rest, hb, ?_, ?_⟩
              · rw [List.mem_singleton.mp h1, hXs]
              · rw [List.mem_singleton.mp h1, hXl]
          · exact Or.inr ⟨e2, List.mem_cons_of_mem e he2, hbe2, hs2, hl2⟩
      · rw [if_neg hd]
        obtain ⟨ih1, ih2⟩ := ih _ c
        refine ⟨?_, ?_⟩
        · intro hc
          rcases ih1 hc with hmem | ⟨e2, he2, hbe2, hs2, hl2⟩
          · rcases List.mem_append.mp hmem with h1 | h1
            · exact Or.inl h1
            · right
              refine ⟨e, List.mem_cons_self e rest, hb, ?_, ?_⟩
              · rw [List.mem_singleton.mp h1, hXs]
              · rw [List.mem_singleton.mp h1, hXl]
          · exact Or.inr ⟨e2, List.mem_cons_of_mem e he2, hbe2, hs2, hl2⟩
        · intro hc
          rcases ih2 hc with hmem | ⟨e2, he2, hbe2, hs2, hl2⟩
          · exact Or.inl hmem
          · exact Or.inr ⟨e2, List.mem_cons_of_mem e he2, hbe2, hs2, hl2⟩

theorem log10_e_inv : (1 : ℝ) / Real.logb 10 (Real.exp 1) = Real.log 10 := by
  rw [Real.logb, Real.log_exp, one_div_one_div]

/-- C9: `compute_ngram_score` multiplies the LM's base-10 log score by
`1 / log10(e) = ln 10`, which turns a base-10 logarithm into a natural
one; and in the mAES expansion loop with LM fusion enabled, every
non-blank expansion adds exactly `alpha` times this converted score to
the hypothesis score and advances the LM state to the one the LM
returned. -/
theorem C9_lm_score_conversion (σ δ Λ : Type) (m : NGramLM Λ) (token_offset : ℕ) (st : Λ)
    (label : ℕ) :
    (compute_ngram_score m token_offset st label).1 =
      (m.baseScore st (lm_label_str token_offset label)).1 * Real.log 10 ∧
    (compute_ngram_score m token_offset st label).2 =
      (m.baseScore st (lm_label_str token_offset label)).2 ∧
    (∀ p : ℝ, Real.logb 10 p * Real.log 10 = Real.log p) ∧
    (∀ (durations : List ℤ) (blank : ℕ) (alpha : ℝ) (time_idx : ℤ)
        (hyp : Hypothesis σ δ Λ) (expansions : List (ℕ × ℕ × ℝ)) (c : Hypothesis σ δ Λ),
      hyp.ngram_lm_state = some st →
      (c ∈ (maes_process_expansions durations blank (some (m, alpha)) token_offset time_idx
            hyp expansions).2.1 ∨
        c ∈ (maes_process_expansions durations blank (some (m, alpha)) token_offset time_idx
            hyp expansions).2.2) →
      ∃ e ∈ expansions, ¬ e.1 = blank ∧
        c.score = hyp.score + e.2.2 + alpha * (compute_ngram_score m token_offset st e.1).1 ∧
        c.ngram_lm_state = some ((compute_ngram_score m token_offset st e.1).2)) ∧
    ∀ (durations : List ℤ) (blank : ℕ) (alpha : ℝ) (time_idx : ℤ)
        (hyp : Hypothesis σ δ Λ) (di : ℕ) (lp : ℝ),
      ¬ label = blank → hyp.ngram_lm_state = some st →
      ∃ c : Hypothesis σ δ Λ,
        c ∈ (maes_process_expansions durations blank (some (m, alpha)) token_offset time_idx
            hyp [(label, di, lp)]).2.1 ∨
        c ∈ (maes_process_expansions durations blank (some (m, alpha)) token_offset time_idx
            hyp [(label, di, lp)]).2.2 := by
  refine ⟨?_, rfl, ?_, ?_, ?_⟩
  · show (m.baseScore st (lm_label_str token_offset label)).1 *
        ((1 : ℝ) / Real.logb 10 (Real.exp 1)) = _
    rw [log10_e_inv]
  · intro p
    rw [Real.logb]
    exact div_mul_cancel₀ (Real.log p) (ne_of_gt (Real.log_pos (by norm_num)))
  · intro durations blank alpha ti hyp exps c hst hc
    obtain ⟨f1, f2⟩ :=
      maes_foldl_lm durations blank m alpha token_offset ti hyp st hst exps ([], [], []) c
    rcases hc with h | h
    · rcases f1 h with hmem | hgood
      · simp at hmem
      · exact hgood
    · rcases f2 h with hmem | hgood
      · simp at hmem
      · exact hgood
  · intro durations blank alpha ti hyp di lp hb hst
    obtain ⟨X, hXs, hXl, hstep⟩ :=
      maes_step_nonblank_lm durations blank m alpha token_offset ti hyp st hst
        ([], [], []) (label, di, lp) hb
    have hfold : maes_process_expansions durations blank (some (m, alpha)) token_offset ti
        hyp [(label, di, lp)] =
        maes_expansion_step durations blank (some (m, alpha)) token_offset ti hyp
          ([], [], []) (label, di, lp) := rfl
    rw [hfold, hstep]
    by_cases hd : durations.getD di 0 = 0
    · rw [if_pos hd]
      exact ⟨X, Or.inr (List.mem_cons_self X [])⟩
    · rw [if_neg hd]
      exact ⟨X, Or.inl (List.mem_cons_self X [])⟩

/-- `float(max(hyps, key=lambda x: x.score).score)`: the best score of a
working set (0 for the empty list, which the caller rules out). -/
noncomputable def maxScore : List (Hypothesis σ δ Λ) → ℝ
  | [] => 0
  | h :: t => t.foldl (fun m x => max m x.score) h.score

/-- The early-termination check of `default_beam_search` (lines
451-462): with a non-empty working set, collect the pending hypotheses
whose score strictly exceeds the best working-set score, sorted
ascending by score; when at least `beam` of them exist they become the
kept set and the frame's processing stops (`some`), otherwise the loop
continues (`none`). -/
noncomputable def early_stop_check (beam : ℕ) (hyps kept_hyps : List (Hypothesis σ δ Λ)) :
    Option (List (Hypothesis σ δ Λ)) :=
  if 0 < hyps.length then
    if beam ≤ (List.insertionSort (fun a b => a.score ≤ b.score)
        (kept_hyps.filter fun h => maxScore hyps < h.score)).length then
      some (List.insertionSort (fun a b => a.score ≤ b.score)
        (kept_hyps.filter fun h => maxScore hyps < h.score))
    else none
  else none

theorem foldl_max_lt_iff (t : List (Hypothesis σ δ Λ)) :
    ∀ a s : ℝ, t.foldl (fun m x => max m x.score) a < s ↔ a < s ∧ ∀ x ∈ t, x.score < s := by
  induction t with
  | nil => intro a s; simp
  | cons x xs ih =>
    intro a s
    rw [List.foldl_cons, ih]
    constructor
    · rintro ⟨h1, h2⟩
      rcases max_lt_iff.mp h1 with ⟨ha, hx⟩
      refine ⟨ha, ?_⟩
      intro y hy
      rcases List.mem_cons.mp hy with rfl | hm
      · exact hx
      · exact h2 y hm
    · rintro ⟨ha, hall⟩
      exact ⟨max_lt_iff.mpr ⟨ha, hall x (List.mem_cons_self x xs)⟩,
        fun y hy => hall y (List.mem_cons_of_mem x hy)⟩

theorem maxScore_lt_iff {hyps : List (Hypothesis σ δ Λ)} (hne : hyps ≠ []) (s : ℝ) :
    maxScore hyps < s ↔ ∀ w ∈ hyps, w.score < s := by
  cases hyps with
  | nil => exact absurd rfl hne
  | cons h t =>
    show t.foldl (fun m x => max m x.score) h.score < s ↔ _
    rw [foldl_max_lt_iff]
    constructor
    · rintro ⟨h1, h2⟩ w hw
      rcases List.mem_cons.mp hw with rfl | hm
      · exact h1
      · exact h2 w hm
    · intro hall
      exact ⟨hall h (List.mem_cons_self h t),
        fun x hx => hall x (List.mem_cons_of_mem h hx)⟩

/-- C6: the early-termination check fires exactly when the working set
is non-empty and at least `beam` pending hypotheses score strictly
above every working-set hypothesis, and the list it carries forward is
precisely (a permutation of) those strictly dominating pending
hypotheses. -/
theorem C6_early_termination (σ δ Λ : Type) (beam : ℕ)
    (hyps kept_hyps : List (Hypothesis σ δ Λ)) :
    ((early_stop_check beam hyps kept_hyps).isSome ↔
      hyps ≠ [] ∧
        beam ≤ (kept_hyps.filter fun h => ∀ w ∈ hyps, w.score < h.score).length) ∧
    ∀ l ∈ early_stop_check beam hyps kept_hyps,
      l.Perm (kept_hyps.filter fun h => ∀ w ∈ hyps, w.score < h.score) := by
  by_cases hne : hyps = []
  · subst hne
    constructor
    · simp [early_stop_check]
    · intro l hl
      simp [early_stop_check, Option.mem_def] at hl
  · have hpos : 0 < hyps.length := List.length_pos.mpr hne
    have hfe : (kept_hyps.filter fun h => maxScore hyps < h.score) =
        kept_hyps.filter fun h => ∀ w ∈ hyps, w.score < h.score := by
      refine List.filter_congr fun h _ => ?_
      exact decide_eq_decide.mpr (maxScore_lt_iff hne h.score)
    have hperm := List.perm_insertionSort (fun a b : Hypothesis σ δ Λ => a.score ≤ b.score)
      (kept_hyps.filter fun h => maxScore hyps < h.score)
    have hlen := hperm.length_eq
    unfold early_stop_check
    rw [if_pos hpos]
    by_cases hbeam : beam ≤
        (List.insertionSort (fun a b : Hypothesis σ δ Λ => a.score ≤ b.score)
          (kept_hyps.filter fun h => maxScore hyps < h.score)).length
    · rw [if_pos hbeam]
      constructor
      · simp only [Option.isSome_some, true_iff]
        refine ⟨hne, ?_⟩
        rw [← hfe, ← hlen]
        exact hbeam
      · intro l hl
        rw [Option.mem_def] at hl
        injection hl with hl2
        rw [← hl2, ← hfe]
        exact hperm
    · rw [if_neg hbeam]
      constructor
      · constructor
        · intro hfalse
          simp at hfalse
        · rintro ⟨-, hb2⟩
          exfalso
          apply hbeam
          rw [hlen, hfe]
          exact hb2
      · intro l hl
        simp [Option.mem_def] at hl

theorem sorted_desc_insertionSort (key : Hypothesis σ δ Λ → ℝ)
    (l : List (Hypothesis σ δ Λ)) :
    (List.insertionSort (fun a b => key b ≤ key a) l).Pairwise fun a b => key b ≤ key a := by
  haveI : IsTotal (Hypothesis σ δ Λ) fun a b => key b ≤ key a := ⟨fun a b => le_total _ _⟩
  haveI : IsTrans (Hypothesis σ δ Λ) fun a b => key b ≤ key a :=
    ⟨fun _ _ _ h1 h2 => le_trans h2 h1⟩
  exact List.sorted_insertionSort _ l

theorem ranksBefore_key_le (key : Hypothesis σ δ Λ → ℝ) {out : List (Hypothesis σ δ Λ)}
    (hs : out.Pairwise fun a b => key b ≤ key a) {A B : Hypothesis σ δ Λ}
    (h : ranksBefore out A B) : key B ≤ key A := by
  obtain ⟨i, j, hij, hiA, hjB⟩ := h
  obtain ⟨hi, hgi⟩ := List.get?_eq_some.mp hiA
  obtain ⟨hj, hgj⟩ := List.get?_eq_some.mp hjB
  have hp := List.pairwise_iff_get.mp hs ⟨i, hi⟩ ⟨j, hj⟩ (Fin.mk_lt_mk.mpr hij)
  rw [hgi, hgj] at hp
  exact hp

theorem ranksBefore_of_key_lt (key : Hypothesis σ δ Λ → ℝ) {out : List (Hypothesis σ δ Λ)}
    (hs : out.Pairwise fun a b => key b ≤ key a) {A B : Hypothesis σ δ Λ}
    (hA : A ∈ out) (hB : B ∈ out) (h : key B < key A) :
    ranksBefore out A B ∧ ¬ ranksBefore out B A := by
  constructor
  · obtain ⟨⟨i, hi⟩, hgi⟩ := List.mem_iff_get.mp hA
    obtain ⟨⟨j, hj⟩, hgj⟩ := List.mem_iff_get.mp hB
    have hij : i < j := by
      by_contra hle
      push_neg at hle
      rcases lt_or_eq_of_le hle with hji | hji
      · have hp := List.pairwise_iff_get.mp hs ⟨j, hj⟩ ⟨i, hi⟩ (Fin.mk_lt_mk.mpr hji)
        rw [hgi, hgj] at hp
        exact absurd h (not_lt.mpr hp)
      · rw [← hgi, ← hgj] at h
        have : (⟨j, hj⟩ : Fin out.length) = ⟨i, hi⟩ := Fin.mk_eq_mk.mpr hji
        rw [this] at h
        exact lt_irrefl _ h
    exact ⟨i, j, hij, List.get?_eq_some.mpr ⟨hi, hgi⟩, List.get?_eq_some.mpr ⟨hj, hgj⟩⟩
  · intro hr
    exact absurd (ranksBefore_key_le key hs hr) (not_le.mpr h)

theorem orderedInsert_filter_eq (key : Hypothesis σ δ Λ → ℝ) (c : ℝ)
    (x : Hypothesis σ δ Λ) (L : List (Hypothesis σ δ Λ)) :
    (key x = c → (List.orderedInsert (fun a b => key b ≤ key a) x L).filter
        (fun h => key h = c) = x :: L.filter fun h => key h = c) ∧
    (key x ≠ c → (List.orderedInsert (fun a b => key b ≤ key a) x L).filter
        (fun h => key h = c) = L.filter fun h => key h = c) := by
  induction L with
  | nil =>
    constructor
    · intro hx
      simp [List.orderedInsert, List.filter, hx]
    · intro hx
      simp [List.orderedInsert, List.filter, hx]
  | cons y ys ih =>
    constructor
    · intro hx
      by_cases hr : key y ≤ key x
      · rw [List.orderedInsert, if_pos hr]
        simp [List.filter_cons, hx]
      · rw [List.orderedInsert, if_neg hr]
        have hy : ¬ key y = c := by
          intro hyc
          exact hr (by rw [hyc, hx])
        rw [List.filter_cons, List.filter_cons]
        rw [if_neg (by simp [hy]), if_neg (by simp [hy])]
        exact ih.1 hx
    · intro hx
      by_cases hr : key y ≤ key x
      · rw [List.orderedInsert, if_pos hr]
        rw [List.filter_cons]
        rw [if_neg (by simp [hx])]
      · rw [List.orderedInsert, if_neg hr]
        rw [List.filter_cons, List.filter_cons]
        by_cases hy : key y = c
        · rw [if_pos (by simp [hy]), if_pos (by simp [hy]), ih.2 hx]
        · rw [if_neg (by simp [hy]), if_neg (by simp [hy])]
          exact ih.2 hx

theorem insertionSort_filter_key (key : Hypothesis σ δ Λ → ℝ) (c : ℝ) :
    ∀ l : List (Hypothesis σ δ Λ),
      (List.insertionSort (fun a b => key b ≤ key a) l).filter (fun h => key h = c) =
        l.filter fun h => key h = c := by
  intro l
  induction l with
  | nil => rfl
  | cons x xs ih =>
    show (List.orderedInsert _ x (List.insertionSort _ xs)).filter _ = _
    by_cases hx : key x = c
    · rw [(orderedInsert_filter_eq key c x (List.insertionSort _ xs)).1 hx, ih,
        List.filter_cons, if_pos (by simp [hx])]
    · rw [(orderedInsert_filter_eq key c x (List.insertionSort _ xs)).2 hx, ih,
        List.filter_cons, if_neg (by simp [hx])]

/-- A duplicate of `seedHyp` (same sequence and last frame) with score
1. -/
def seedHypOne : Hypothesis Unit Unit Unit := { seedHyp with score := 1 }

/-- C1 witness: the merge equation and its bounds at the concrete
duplicate pair `seedHyp`, `seedHypOne`. -/
theorem C1_merge_witness :
    (remove_duplicate_hypotheses [seedHyp, seedHypOne]).map (fun h => h.score) =
      [logaddexp seedHyp.score seedHypOne.score] ∧
    max seedHyp.score seedHypOne.score ≤ logaddexp seedHyp.score seedHypOne.score ∧
    logaddexp seedHyp.score seedHypOne.score ≤
      max seedHyp.score seedHypOne.score + Real.log 2 :=
  C1_duplicate_merge_is_logsumexp Unit Unit Unit seedHyp seedHypOne rfl rfl

/-- C7 (amended): `sort_nbest` returns a permutation of its input that
is sorted descending by `score / len(y_sequence)` when `score_norm` is
true and by raw `score` when it is false; ties are broken by stable
input order (the sublist at any fixed ranking key is unchanged); and for
two kept hypotheses with distinct ranking keys, A ranks before B exactly
when A's key is the larger.  (The biconditional with `≥` from the claim
fails for tied keys, see the counterexample.) -/
theorem C7_ranking (σ δ Λ : Type) (hyps : List (Hypothesis σ δ Λ)) :
    (sort_nbest true hyps).Perm hyps ∧
    (sort_nbest false hyps).Perm hyps ∧
    (∀ A B, ranksBefore (sort_nbest true hyps) A B → normScore B ≤ normScore A) ∧
    (∀ A B, A ∈ sort_nbest true hyps → B ∈ sort_nbest true hyps →
      normScore B < normScore A →
      ranksBefore (sort_nbest true hyps) A B ∧ ¬ ranksBefore (sort_nbest true hyps) B A) ∧
    (∀ A B, ranksBefore (sort_nbest false hyps) A B → B.score ≤ A.score) ∧
    (∀ A B, A ∈ sort_nbest false hyps → B ∈ sort_nbest false hyps → B.score < A.score →
      ranksBefore (sort_nbest false hyps) A B ∧ ¬ ranksBefore (sort_nbest false hyps) B A) ∧
    (∀ c : ℝ, (sort_nbest true hyps).filter (fun h => normScore h = c) =
      hyps.filter fun h => normScore h = c) ∧
    (∀ c : ℝ, (sort_nbest false hyps).filter (fun h => h.score = c) =
      hyps.filter fun h => h.score = c) := by
  have e1 : sort_nbest true hyps =
      List.insertionSort (fun a b => normScore b ≤ normScore a) hyps := rfl
  have e2 : sort_nbest false hyps =
      List.insertionSort (fun a b : Hypothesis σ δ Λ => b.score ≤ a.score) hyps := rfl
  have hs1 : (sort_nbest true hyps).Pairwise fun a b => normScore b ≤ normScore a := by
    rw [e1]
    exact sorted_desc_insertionSort normScore hyps
  have hs2 : (sort_nbest false hyps).Pairwise
      fun a b : Hypothesis σ δ Λ => b.score ≤ a.score := by
    rw [e2]
    exact sorted_desc_insertionSort (fun h => h.score) hyps
  refine ⟨by rw [e1]; exact List.perm_insertionSort _ hyps,
    by rw [e2]; exact List.perm_insertionSort _ hyps,
    ?_, ?_, ?_, ?_, ?_, ?_⟩
  · intro A B h
    exact ranksBefore_key_le normScore hs1 h
  · intro A B hA hB h
    exact ranksBefore_of_key_lt normScore hs1 hA hB h
  · intro A B h
    exact ranksBefore_key_le (fun h => h.score) hs2 h
  · intro A B hA hB h
    exact ranksBefore_of_key_lt (fun h => h.score) hs2 hA hB h
  · intro c
    rw [e1]
    exact insertionSort_filter_key normScore c hyps
  · intro c
    rw [e2]
    exact insertionSort_filter_key (fun h => h.score) c hyps

/-- A length-1 hypothesis with raw score 1: normalized score 1. -/
def hypA : Hypothesis Unit Unit Unit :=
  { score := 1, y_sequence := [0], dec_state := (), timestep := [], length := 0,
    last_frame := 0 }

/-- A length-2 hypothesis with raw score 2: normalized score 1,
tying with `hypA`. -/
def hypB : Hypothesis Unit Unit Unit :=
  { score := 2, y_sequence := [0, 1], dec_state := (), timestep := [], length := 0,
    last_frame := 0 }

/-- C7 counterexample: `hypA` and `hypB` have equal normalized scores
(1 each), so `hypB.norm ≥ hypA.norm` holds, yet the stable sort keeps
the input order `[hypA, hypB]` and `hypB` does not rank before `hypA` —
the claimed biconditional `A before B ↔ A.norm ≥ B.norm` is false at
this input. -/
theorem C7_counterexample :
    ¬ (ranksBefore (sort_nbest true [hypA, hypB]) hypB hypA ↔
        normScore hypA ≤ normScore hypB) := by
  have hAB : normScore hypB ≤ normScore hypA := by
    simp [normScore, hypA, hypB]
  have hsort : sort_nbest true [hypA, hypB] = [hypA, hypB] := by
    have e1 : sort_nbest true [hypA, hypB] =
        List.insertionSort (fun a b => normScore b ≤ normScore a) [hypA, hypB] := rfl
    rw [e1]
    simp only [List.insertionSort, List.orderedInsert]
    rw [if_pos hAB]
  intro hiff
  have hr : ranksBefore (sort_nbest true [hypA, hypB]) hypB hypA :=
    hiff.mpr (by simp [normScore, hypA, hypB])
  rw [hsort] at hr
  obtain ⟨i, j, hij, hiB, hjA⟩ := hr
  match i, hij with
  | 0, hij =>
    have hBA : hypA = hypB := by
      rw [show ([hypA, hypB].get? 0) = some hypA from rfl] at hiB
      injection hiB
    have hseq := congrArg (fun h : Hypothesis Unit Unit Unit => h.y_sequence) hBA
    simp [hypA, hypB] at hseq
  | 1, hij =>
    have hnone : [hypA, hypB].get? j = none := by
      rw [List.get?_eq_none]
      simp
      omega
    rw [hnone] at hjA
    exact absurd hjA (by simp)
  | (n + 2), hij =>
    have hnone : [hypA, hypB].get? (n + 2) = none := by
      rw [List.get?_eq_none]
      simp
    rw [hnone] at hiB
    exact absurd hiB (by simp)

/-- C3 witness: order-independence of the merge at a concrete swapped
pair of hypotheses. -/
theorem C3_dedup_witness :
    (([3], (0 : ℤ), (0 : ℝ)) ∈
        (remove_duplicate_hypotheses [hypA, hypB]).map
          (fun h => (h.y_sequence, h.last_frame, h.score)) ↔
      ([3], (0 : ℤ), (0 : ℝ)) ∈
        (remove_duplicate_hypotheses [hypB, hypA]).map
          fun h => (h.y_sequence, h.last_frame, h.score)) :=
  C3_dedup_order_independent Unit Unit Unit [hypA, hypB] [hypB, hypA]
    (List.Perm.swap hypB hypA []) ([3], 0, 0)

end TDT
